import Mathlib

/-!
A verification development for the `cactus` tool (`src/main.rs`): a shallow
embedding of its repository discovery (`find_repos` / `collect_repos`), size
accounting (`dir_size`), purge scanning (`find_purgeable` / `scan_dir`) and
the deletion loop of `run`, together with theorems about the claims of the
specification.

The file system is modelled as a tree.  A directory entry is a triple
`(basename, isSymlink, node)`; for a symlink entry the node is the resolved
link target.  A directory whose entries cannot be read (permission denied)
is `.dir none`; a file whose metadata cannot be read is `.file none`.
External collaborators are modelled as oracle functions: the git2 ignore
check as `String → Option Bool` (with `none` for a failing check), opening a
repository as an `Option` of such an oracle, and `fs::remove_dir_all` as
`FSNode → List FName → Option FSNode`.
-/

/-- A file-system basename: either valid UTF-8, or a non-UTF-8 name
identified abstractly by an id. -/
inductive FName where
  | utf8 (s : String)
  | raw (id : Nat)
deriving DecidableEq, Repr

/-- `entry.file_name().to_str().unwrap_or("")`: the basename as a string,
with `""` for a non-UTF-8 basename. -/
def FName.toStr : FName → String
  | .utf8 s => s
  | .raw _ => ""

/-- `Path::display` on one component: lossy rendering of a basename, with
non-UTF-8 bytes shown as replacement characters. -/
def FName.display : FName → String
  | .utf8 s => s
  | .raw _ => "�"

/-- A file-system tree.  A directory entry is `(basename, isSymlink, node)`;
for a symlink entry the node is the (existing) link target.  `.dir none` is a
directory that cannot be read, `.file none` a file whose metadata cannot be
read. -/
inductive FSNode where
  | file (meta : Option Nat)
  | dir (entries : Option (List (FName × Bool × FSNode)))
deriving Repr

/-- `name.starts_with('.')` from `src/main.rs`: the first character of the
basename string is `.`. -/
def startsDot (s : String) : Bool :=
  match s.data with
  | [] => false
  | c :: _ => decide (c = '.')

/-- `const TARGETS: &[&str]` from `src/main.rs`. -/
def TARGETS : List String :=
  ["build", ".gradle", "bin", "obj", "node_modules", "target",
   "__pycache__", ".mypy_cache", ".pytest_cache", ".ruff_cache", ".tox"]

/-- `path.is_dir()` for a non-symlink entry (and, on symlink targets, the
resolved check): the node is a directory. -/
def isDirNode : FSNode → Bool
  | .dir _ => true
  | .file _ => false

/-- `dir.join(".git").exists()`: the directory has an entry named `.git`, of
any file type.  On an unreadable directory or a non-directory node the marker
cannot be observed and the check is `false`. -/
def nodeHasGit : FSNode → Bool
  | .dir (some es) => es.any (fun e => decide (e.1 = FName.utf8 ".git"))
  | _ => false

mutual

/-- `collect_repos(dir, max_depth, depth, repos)` from `src/main.rs`,
returning the recorded repository paths; `dirPath` is the path of the node
`t` being visited. -/
def collect_repos (t : FSNode) (max_depth depth : Nat) (dirPath : List FName) :
    List (List FName) :=
  if depth > max_depth then []
  else if nodeHasGit t then [dirPath]
  else
    match t with
    | .dir (some es) => collect_repos_entries es max_depth depth dirPath
    | _ => []

/-- The `for entry in entries.flatten()` loop of `collect_repos`: recurse
into each non-symlink subdirectory. -/
def collect_repos_entries (es : List (FName × Bool × FSNode))
    (max_depth depth : Nat) (dirPath : List FName) : List (List FName) :=
  match es with
  | [] => []
  | (n, sym, child) :: rest =>
    (if isDirNode child && !sym then
       collect_repos child max_depth (depth + 1) (dirPath ++ [n])
     else []) ++ collect_repos_entries rest max_depth depth dirPath

end

/-- Order on basenames, modelling the byte order on `OsStr`; the non-UTF-8
names are placed after all UTF-8 ones. -/
def FName.ble : FName → FName → Bool
  | .utf8 s, .utf8 t => decide (s ≤ t)
  | .utf8 _, .raw _ => true
  | .raw _, .utf8 _ => false
  | .raw i, .raw j => decide (i ≤ j)

/-- Lexicographic order on paths (component lists), modelling the `PathBuf`
order used by `repos.sort()`. -/
def pathBle : List FName → List FName → Bool
  | [], _ => true
  | _ :: _, [] => false
  | a :: as, b :: bs => if a = b then pathBle as bs else FName.ble a b

/-- `find_repos(base, max_depth)` from `src/main.rs`: collect, then
`repos.sort()`. -/
def find_repos (base : List FName) (t : FSNode) (max_depth : Nat) :
    List (List FName) :=
  List.mergeSort (collect_repos t max_depth 0 base) pathBle

/-- The subdirectory nodes pushed on the work list by one `dir_size` loop
iteration: entries whose own file type is a non-symlink directory. -/
def pushDirs : List (FName × Bool × FSNode) → List FSNode
  | [] => []
  | (_, sym, child) :: rest =>
    if isDirNode child && !sym then child :: pushDirs rest else pushDirs rest

/-- The bytes added by one `dir_size` loop iteration:
`entry.metadata().map(len).unwrap_or(0)` summed over the regular
(non-symlink) file entries. -/
def fileBytes (es : List (FName × Bool × FSNode)) : Nat :=
  (es.map (fun e =>
    if e.2.1 then 0
    else
      match e.2.2 with
      | .file m => m.getD 0
      | .dir _ => 0)).sum

/-- The explicit work-list loop of `dir_size` from `src/main.rs`. -/
def dir_size_loop (stack : List FSNode) (total : Nat) : Nat :=
  match stack with
  | [] => total
  | .file m :: rest => dir_size_loop rest total
  | .dir none :: rest => dir_size_loop rest total
  | .dir (some es) :: rest =>
      dir_size_loop (pushDirs es ++ rest) (total + fileBytes es)
termination_by (stack.map sizeOf).sum
decreasing_by
  · simp only [List.map_cons, List.sum_cons]
    have h : 0 < sizeOf (FSNode.file m) := by
      cases m <;> simp
    omega
  · simp only [List.map_cons, List.sum_cons]
    have h : 0 < sizeOf (FSNode.dir none) := by simp
    omega
  · simp only [List.map_cons, List.sum_cons, List.map_append, List.sum_append]
    have key : ∀ l : List (FName × Bool × FSNode),
        ((pushDirs l).map sizeOf).sum ≤ sizeOf l := by
      intro l
      induction l with
      | nil => simp [pushDirs]
      | cons e r ih =>
        obtain ⟨a, b, c⟩ := e
        by_cases hc : (isDirNode c && !b) = true
        · rw [show pushDirs ((a, b, c) :: r) = c :: pushDirs r from by
            rw [pushDirs, if_pos hc]]
          simp only [List.map_cons, List.sum_cons, List.cons.sizeOf_spec,
            Prod.mk.sizeOf_spec]
          omega
        · rw [show pushDirs ((a, b, c) :: r) = pushDirs r from by
            rw [pushDirs, if_neg hc]]
          simp only [List.cons.sizeOf_spec, Prod.mk.sizeOf_spec]
          omega
    have h := key es
    have h2 : sizeOf es < sizeOf (FSNode.dir (some es)) := by
      simp only [FSNode.dir.sizeOf_spec, Option.some.sizeOf_spec]
      omega
    omega

/-- `dir_size(path)` from `src/main.rs`, applied to the node at the path. -/
def dir_size (t : FSNode) : Nat := dir_size_loop [t] 0

mutual

/-- Modelled from the spec (SizeAccountant contract): the total bytes of the
regular files in the subtree, entries reached through a symbolic link
excluded, an unreadable directory contributing 0 and a file whose metadata
cannot be read contributing 0. -/
def spec_size : FSNode → Nat
  | .file _ => 0
  | .dir none => 0
  | .dir (some es) => spec_size_entries es

/-- Sum of `spec_size` contributions over a directory listing. -/
def spec_size_entries : List (FName × Bool × FSNode) → Nat
  | [] => 0
  | (_, sym, child) :: rest =>
    (if sym then 0
     else
       match child with
       | .file m => m.getD 0
       | .dir d => spec_size (.dir d)) + spec_size_entries rest

end

/-- A purge candidate: the directory path and the byte size computed at scan
time (`struct Purge` from `src/main.rs`). -/
structure Purge where
  path : List FName
  size : Nat
deriving DecidableEq, Repr

/-- `path.strip_prefix(repo_root).unwrap_or(&path)`. -/
def stripRoot (root p : List FName) : List FName :=
  if root.isPrefixOf p then p.drop root.length else p

/-- `rel.display()`: components joined by the path separator, lossily. -/
def pathDisplay (p : List FName) : String :=
  String.intercalate "/" (p.map FName.display)

/-- The string passed to `repo.is_path_ignored`: the relative path followed
by a trailing path separator. -/
def checkStr (rel : List FName) : String :=
  pathDisplay rel ++ "/"

mutual

/-- `scan_dir(repo, repo_root, dir, out)` from `src/main.rs`, returning the
pushed candidates in discovery order.  `ign` models
`repo.is_path_ignored`, with `none` for a failing check. -/
def scan_dir (ign : String → Option Bool) (repo_root dirPath : List FName)
    (t : FSNode) : List Purge :=
  match t with
  | .dir (some es) => scan_entries ign repo_root dirPath es
  | _ => []

/-- The `for entry in entries.flatten()` loop of `scan_dir`. -/
def scan_entries (ign : String → Option Bool) (repo_root dirPath : List FName)
    (es : List (FName × Bool × FSNode)) : List Purge :=
  match es with
  | [] => []
  | (n, sym, child) :: rest =>
    (if !isDirNode child || sym then []
     else if TARGETS.contains n.toStr then
       (if (ign (checkStr (stripRoot repo_root (dirPath ++ [n])))).getD false then
          [⟨dirPath ++ [n], dir_size child⟩]
        else [])
     else if startsDot n.toStr then []
     else scan_dir ign repo_root (dirPath ++ [n]) child)
    ++ scan_entries ign repo_root dirPath rest

end

/-- `find_purgeable(repo_path)` from `src/main.rs`.  `openRes` models
`Repository::open(repo_path)`: `none` when opening fails, otherwise the
repository's ignore oracle.  `t` is the tree at `repo_path`. -/
def find_purgeable (openRes : Option (String → Option Bool))
    (repo_path : List FName) (t : FSNode) : List Purge :=
  match openRes with
  | none => []
  | some ign => scan_dir ign repo_path repo_path t

/-- The subtree of `t` at a path, when every component resolves. -/
def nodeAt : List FName → FSNode → Option FSNode
  | [], t => some t
  | n :: rest, t =>
    match t with
    | .dir (some es) =>
      (match es.find? (fun e => decide (e.1 = n)) with
       | some e => nodeAt rest e.2.2
       | none => none)
    | _ => none

/-- The inputs of `run` that the excluded CLI layer provides
(`struct Args`, minus the already-canonicalized path). -/
structure Args where
  depth : Nat
  dry_run : Bool
  yes : Bool

/-- The deletion loop of `run` (`fs::remove_dir_all` over every candidate).
`rm` models `fs::remove_dir_all`: `some w` is success with the updated file
system, `none` is failure (state kept).  Returns the final state, the freed
bytes, and the error count. -/
def exec_loop (rm : FSNode → List FName → Option FSNode) (w : FSNode) :
    List Purge → FSNode × Nat × Nat
  | [] => (w, 0, 0)
  | p :: ps =>
    match rm w p.path with
    | some w2 =>
      let r := exec_loop rm w2 ps
      (r.1, p.size + r.2.1, r.2.2)
    | none =>
      let r := exec_loop rm w ps
      (r.1, r.2.1, r.2.2 + 1)

/-- The per-candidate outcome sequence of the deletion loop:
`true` where `fs::remove_dir_all` succeeds, `false` where it fails. -/
def exec_outcomes (rm : FSNode → List FName → Option FSNode) (w : FSNode) :
    List Purge → List Bool
  | [] => []
  | p :: ps =>
    match rm w p.path with
    | some w2 => true :: exec_outcomes rm w2 ps
    | none => false :: exec_outcomes rm w ps

/-- `run(args)` from `src/main.rs`, after `canonicalize` has succeeded: the
world `w` is the tree at the canonical base path, `openRepo` models `git2`,
`rm` models `fs::remove_dir_all`, and `answer` is the line read at the
confirmation prompt.  Returns the final file-system state and the success
flag (`Ok` versus `Err`). -/
def run (rm : FSNode → List FName → Option FSNode)
    (openRepo : List FName → Option (String → Option Bool))
    (args : Args) (answer : String) (w : FSNode) : FSNode × Bool :=
  let repos := find_repos [] w args.depth
  if repos.isEmpty then (w, false)
  else
    let all_purges :=
      (repos.map (fun r =>
        (r, match nodeAt r w with
            | some t => find_purgeable (openRepo r) r t
            | none => []))).filter (fun x => !x.2.isEmpty)
    if all_purges.isEmpty then (w, true)
    else if args.dry_run then (w, true)
    else if !args.yes && !(["y", "Y", "yes"].contains answer.trim) then (w, true)
    else
      let r := exec_loop rm w (all_purges.flatMap (fun x => x.2))
      (r.1, r.2.2 == 0)

mutual

/-- Two trees that agree everywhere except possibly in the nodes behind
symlink entries. -/
def symEquiv : FSNode → FSNode → Bool
  | .file m, .file m2 => decide (m = m2)
  | .dir none, .dir none => true
  | .dir (some es), .dir (some es2) => symEquivEntries es es2
  | _, _ => false

/-- Entrywise `symEquiv`: names and symlink flags agree, and non-symlink
child nodes are again `symEquiv`. -/
def symEquivEntries :
    List (FName × Bool × FSNode) → List (FName × Bool × FSNode) → Bool
  | [], [] => true
  | (n, sym, c) :: r, (n2, sym2, c2) :: r2 =>
    decide (n = n2) && decide (sym = sym2) && (sym || symEquiv c c2) &&
      symEquivEntries r r2
  | _, _ => false

end

mutual

/-- Well-formedness of a tree as a real directory hierarchy: within each
readable directory the basenames are pairwise distinct. -/
def noDupNames : FSNode → Bool
  | .file _ => true
  | .dir none => true
  | .dir (some es) =>
    decide ((es.map (fun e => e.1)).Nodup) && noDupEntries es

/-- `noDupNames` on every node of a directory listing. -/
def noDupEntries : List (FName × Bool × FSNode) → Bool
  | [] => true
  | e :: r => noDupNames e.2.2 && noDupEntries r

end

/-- The chains of directory entries that `collect_repos` descends through:
`DiscStep t rel u` holds when starting at `t` and repeatedly entering a
non-symlink directory entry of a readable directory that does not contain the
`.git` marker, the components `rel` lead to the node `u`. -/
inductive DiscStep : FSNode → List FName → FSNode → Prop where
  | refl (t : FSNode) : DiscStep t [] t
  | step {es : List (FName × Bool × FSNode)} {n : FName} {child u : FSNode}
      {rel : List FName} :
      (n, false, child) ∈ es →
      isDirNode child = true →
      nodeHasGit (.dir (some es)) = false →
      DiscStep child rel u →
      DiscStep (.dir (some es)) (n :: rel) u

/-- The chains of directory entries that `scan_dir` descends through:
`ScanStep t rel u` holds when starting at `t` and repeatedly entering a
non-symlink directory entry whose basename is neither a target name nor
hidden, the components `rel` lead to the node `u`. -/
inductive ScanStep : FSNode → List FName → FSNode → Prop where
  | refl (t : FSNode) : ScanStep t [] t
  | step {es : List (FName × Bool × FSNode)} {n : FName} {child u : FSNode}
      {rel : List FName} :
      (n, false, child) ∈ es →
      isDirNode child = true →
      TARGETS.contains n.toStr = false →
      startsDot n.toStr = false →
      ScanStep child rel u →
      ScanStep (.dir (some es)) (n :: rel) u

/-- Example repository tree: a `.git` marker, an ignored `build` directory
holding one 4-byte file, and a nested `node_modules` under `src`. -/
def exRepo : FSNode :=
  .dir (some [(.utf8 ".git", false, .dir (some [])),
    (.utf8 "build", false, .dir (some [(.utf8 "f", false, .file (some 4))])),
    (.utf8 "src", false,
      .dir (some [(.utf8 "node_modules", false, .dir (some []))]))])

/-- Example world containing one repository. -/
def exWorld : FSNode := .dir (some [(.utf8 "proj", false, exRepo)])

/-- Example ignore oracle for `exRepo`: `build/` and `src/node_modules/` are
ignored. -/
def exIgn : String → Option Bool :=
  fun s => some (decide (s = "build/") || decide (s = "src/node_modules/"))

/-- Ignore oracle that answers ignored on every path. -/
def exIgnAll : String → Option Bool := fun _ => some true

/-- Example tree whose `.git` marker entry is a regular file. -/
def exGitFile : FSNode :=
  .dir (some [(.utf8 ".git", false, .file (some 0))])

/-- Example tree with a hidden target directory `.gradle`. -/
def exHidden : FSNode :=
  .dir (some [(.utf8 ".gradle", false, .dir (some []))])

/-- Example tree with a `build` target below a non-UTF-8 directory name. -/
def exRawTree : FSNode :=
  .dir (some [(.raw 0, false,
    .dir (some [(.utf8 "build", false, .dir (some []))]))])

/-- Example pair of trees differing only behind the symlink entry `s`. -/
def exSymA : FSNode :=
  .dir (some [(.utf8 "s", true, .file (some 1)),
    (.utf8 "a", false, .file (some 2))])

/-- Second component of the example pair: `s` now points at a directory that
contains a `target` directory. -/
def exSymB : FSNode :=
  .dir (some [(.utf8 "s", true,
    .dir (some [(.utf8 "target", false, .dir (some []))])),
    (.utf8 "a", false, .file (some 2))])

/-- Induction over file-system trees, with the hypothesis available for every
entry of a readable directory. -/
theorem FSNode.ind {P : FSNode → Prop} (hf : ∀ m, P (FSNode.file m))
    (hn : P (FSNode.dir none))
    (hd : ∀ es, (∀ e ∈ es, P e.2.2) → P (FSNode.dir (some es))) :
    ∀ t : FSNode, P t
  | .file m => hf m
  | .dir none => hn
  | .dir (some es) => hd es (fun e he => FSNode.ind hf hn hd e.2.2)
termination_by t => sizeOf t
decreasing_by
  have h1 : sizeOf e < sizeOf es := List.sizeOf_lt_of_mem he
  have h2 : sizeOf e.2.2 < sizeOf e := by
    obtain ⟨a, b, c⟩ := e
    simp only [Prod.mk.sizeOf_spec]
    omega
  simp only [FSNode.dir.sizeOf_spec, Option.some.sizeOf_spec]
  omega

/-- One step of the `dir_size` work list accounts for one directory level of
`spec_size`. -/
theorem spec_size_dir (es : List (FName × Bool × FSNode)) :
    spec_size (.dir (some es)) = fileBytes es + ((pushDirs es).map spec_size).sum := by
  rw [show spec_size (.dir (some es)) = spec_size_entries es from rfl]
  induction es with
  | nil => simp [spec_size_entries, fileBytes, pushDirs]
  | cons e rest ih =>
    obtain ⟨n, sym, c⟩ := e
    cases sym with
    | true =>
      rw [show spec_size_entries ((n, true, c) :: rest) = 0 + spec_size_entries rest
        from rfl]
      have hp : pushDirs ((n, true, c) :: rest) = pushDirs rest := by
        rw [pushDirs]
        simp
      have hf : fileBytes ((n, true, c) :: rest) = fileBytes rest := by
        simp [fileBytes]
      rw [hp, hf, ih]
      omega
    | false =>
      cases c with
      | file m =>
        rw [show spec_size_entries ((n, false, .file m) :: rest) =
          m.getD 0 + spec_size_entries rest from rfl]
        have hp : pushDirs ((n, false, .file m) :: rest) = pushDirs rest := by
          rw [pushDirs]
          simp [isDirNode]
        have hf : fileBytes ((n, false, .file m) :: rest) = m.getD 0 + fileBytes rest := by
          simp [fileBytes]
        rw [hp, hf, ih]
        omega
      | dir d =>
        rw [show spec_size_entries ((n, false, .dir d) :: rest) =
          spec_size (.dir d) + spec_size_entries rest from rfl]
        have hp : pushDirs ((n, false, .dir d) :: rest) = .dir d :: pushDirs rest := by
          rw [pushDirs]
          simp [isDirNode]
        have hf : fileBytes ((n, false, .dir d) :: rest) = fileBytes rest := by
          simp [fileBytes]
        rw [hp, hf, ih]
        simp only [List.map_cons, List.sum_cons]
        omega

/-- The `dir_size` loop computes the running total plus the `spec_size` of
everything on the work list. -/
theorem dir_size_loop_eq (stack : List FSNode) (total : Nat) :
    dir_size_loop stack total = total + (stack.map spec_size).sum := by
  induction stack, total using dir_size_loop.induct with
  | case1 total => simp [dir_size_loop]
  | case2 total m rest ih =>
    rw [dir_size_loop, ih]
    simp [spec_size]
  | case3 total rest ih =>
    rw [dir_size_loop, ih]
    simp [spec_size]
  | case4 total es rest ih =>
    rw [dir_size_loop, ih]
    simp only [List.map_cons, List.sum_cons, List.map_append, List.sum_append,
      spec_size_dir]
    omega

/-- `dir_size` agrees with the specification-level size function. -/
theorem dir_size_eq_spec (t : FSNode) : dir_size t = spec_size t := by
  rw [dir_size, dir_size_loop_eq]
  simp

/-- Stripping the scan root from a path below it leaves the relative path. -/
theorem stripRoot_append (root rel : List FName) :
    stripRoot root (root ++ rel) = rel := by
  rw [stripRoot, if_pos, List.drop_left]
  rw [List.isPrefixOf_iff_prefix]
  exact List.prefix_append root rel

/-- `unwrap_or(false)` yields `true` exactly on a successful `true` answer. -/
theorem getD_false_iff (o : Option Bool) : o.getD false = true ↔ o = some true := by
  cases o with
  | none => simp
  | some b => cases b <;> simp

/-- `FName.ble` is total. -/
theorem FName.ble_total (a b : FName) : FName.ble a b || FName.ble b a := by
  cases a with
  | utf8 s =>
    cases b with
    | utf8 t => simpa [FName.ble] using le_total s t
    | raw j => simp [FName.ble]
  | raw i =>
    cases b with
    | utf8 t => simp [FName.ble]
    | raw j => simpa [FName.ble] using Nat.le_total i j

/-- `FName.ble` is transitive. -/
theorem FName.ble_trans {a b c : FName} (h1 : FName.ble a b = true)
    (h2 : FName.ble b c = true) : FName.ble a c = true := by
  cases a with
  | utf8 s =>
    cases c with
    | utf8 u =>
      cases b with
      | utf8 t =>
        simp only [FName.ble, decide_eq_true_eq] at h1 h2 ⊢
        exact le_trans h1 h2
      | raw j => simp [FName.ble] at h2
    | raw j => simp [FName.ble]
  | raw i =>
    cases b with
    | utf8 t => simp [FName.ble] at h1
    | raw j =>
      cases c with
      | utf8 u => simp [FName.ble] at h2
      | raw k =>
        simp only [FName.ble, decide_eq_true_eq] at h1 h2 ⊢
        omega

/-- `FName.ble` is antisymmetric. -/
theorem FName.ble_antisymm {a b : FName} (h1 : FName.ble a b = true)
    (h2 : FName.ble b a = true) : a = b := by
  cases a with
  | utf8 s =>
    cases b with
    | utf8 t =>
      simp only [FName.ble, decide_eq_true_eq] at h1 h2
      exact congrArg FName.utf8 (le_antisymm h1 h2)
    | raw j => simp [FName.ble] at h2
  | raw i =>
    cases b with
    | utf8 t => simp [FName.ble] at h1
    | raw j =>
      simp only [FName.ble, decide_eq_true_eq] at h1 h2
      exact congrArg FName.raw (le_antisymm h1 h2)

/-- `pathBle` is total. -/
theorem pathBle_total (p q : List FName) : pathBle p q || pathBle q p := by
  induction p generalizing q with
  | nil => simp [pathBle]
  | cons a as ih =>
    cases q with
    | nil => simp [pathBle]
    | cons b bs =>
      by_cases hab : a = b
      · subst hab
        rw [pathBle, if_pos rfl, pathBle, if_pos rfl]
        exact ih bs
      · rw [pathBle, if_neg hab, pathBle, if_neg (fun h => hab h.symm)]
        exact FName.ble_total a b

/-- `pathBle` is transitive. -/
theorem pathBle_trans {p q r : List FName} (h1 : pathBle p q = true)
    (h2 : pathBle q r = true) : pathBle p r = true := by
  induction p generalizing q r with
  | nil => simp [pathBle]
  | cons a as ih =>
    cases q with
    | nil => simp [pathBle] at h1
    | cons b bs =>
      cases r with
      | nil => simp [pathBle] at h2
      | cons c cs =>
        by_cases hab : a = b
        · subst hab
          rw [pathBle, if_pos rfl] at h1
          by_cases hac : a = c
          · subst hac
            rw [pathBle, if_pos rfl] at h2 ⊢
            exact ih h1 h2
          · rw [pathBle, if_neg hac] at h2 ⊢
            exact h2
        · rw [pathBle, if_neg hab] at h1
          by_cases hbc : b = c
          · subst hbc
            rw [pathBle, if_neg hab]
            exact h1
          · rw [pathBle, if_neg hbc] at h2
            by_cases hac : a = c
            · subst hac
              exact absurd (FName.ble_antisymm h1 h2) hab
            · rw [pathBle, if_neg hac]
              exact FName.ble_trans h1 h2

/-- `find_repos` is a permutation of the unsorted `collect_repos` output. -/
theorem find_repos_perm (base : List FName) (t : FSNode) (max_depth : Nat) :
    List.Perm (find_repos base t max_depth) (collect_repos t max_depth 0 base) :=
  List.mergeSort_perm _ _

/-- `find_repos` and `collect_repos` record the same paths. -/
theorem find_repos_mem (base : List FName) (t : FSNode) (max_depth : Nat)
    (p : List FName) :
    p ∈ find_repos base t max_depth ↔ p ∈ collect_repos t max_depth 0 base :=
  List.mem_mergeSort

/-- The output of `find_repos` is sorted by `pathBle`. -/
theorem find_repos_sorted (base : List FName) (t : FSNode) (max_depth : Nat) :
    List.Pairwise (fun p q => pathBle p q = true) (find_repos base t max_depth) :=
  @List.sorted_mergeSort _ pathBle (fun _ _ _ h1 h2 => pathBle_trans h1 h2)
    (fun a b => pathBle_total a b) (collect_repos t max_depth 0 base)

/-- `collect_repos` on a file: nothing recorded. -/
theorem collect_repos_file (m : Option Nat) (max_depth depth : Nat)
    (dirPath : List FName) :
    collect_repos (.file m) max_depth depth dirPath = [] := by
  rw [show collect_repos (.file m) max_depth depth dirPath =
    (if depth > max_depth then []
     else if nodeHasGit (.file m) then [dirPath] else []) from rfl]
  rw [show nodeHasGit (.file m) = false from rfl]
  simp

/-- `collect_repos` on an unreadable directory: nothing recorded. -/
theorem collect_repos_dirnone (max_depth depth : Nat) (dirPath : List FName) :
    collect_repos (.dir none) max_depth depth dirPath = [] := by
  rw [show collect_repos (.dir none) max_depth depth dirPath =
    (if depth > max_depth then []
     else if nodeHasGit (.dir none) then [dirPath] else []) from rfl]
  rw [show nodeHasGit (.dir none) = false from rfl]
  simp

/-- `collect_repos` on a readable directory, unfolded one step. -/
theorem collect_repos_dirsome (es : List (FName × Bool × FSNode))
    (max_depth depth : Nat) (dirPath : List FName) :
    collect_repos (.dir (some es)) max_depth depth dirPath =
      (if depth > max_depth then []
       else if nodeHasGit (.dir (some es)) then [dirPath]
       else collect_repos_entries es max_depth depth dirPath) := rfl

/-- Membership in the entry loop of `collect_repos`. -/
theorem collect_repos_entries_mem (es : List (FName × Bool × FSNode))
    (max_depth depth : Nat) (dirPath p : List FName) :
    p ∈ collect_repos_entries es max_depth depth dirPath ↔
      ∃ n child, (n, false, child) ∈ es ∧ isDirNode child = true ∧
        p ∈ collect_repos child max_depth (depth + 1) (dirPath ++ [n]) := by
  induction es with
  | nil => simp [collect_repos_entries]
  | cons e rest ih =>
    obtain ⟨n, sym, child⟩ := e
    rw [show collect_repos_entries ((n, sym, child) :: rest) max_depth depth dirPath =
      (if isDirNode child && !sym then
         collect_repos child max_depth (depth + 1) (dirPath ++ [n])
       else []) ++ collect_repos_entries rest max_depth depth dirPath from rfl]
    rw [List.mem_append, ih]
    constructor
    · rintro (hin | ⟨n2, c2, hm, hdn, hp⟩)
      · by_cases hc : (isDirNode child && !sym) = true
        · rw [if_pos hc] at hin
          rw [Bool.and_eq_true, Bool.not_eq_true'] at hc
          obtain ⟨hdn, hsym⟩ := hc
          subst hsym
          exact ⟨n, child, List.mem_cons_self _ _, hdn, hin⟩
        · rw [if_neg hc] at hin
          simp at hin
      · exact ⟨n2, c2, List.mem_cons_of_mem _ hm, hdn, hp⟩
    · rintro ⟨n2, c2, hm, hdn, hp⟩
      rcases List.mem_cons.mp hm with heq | htail
      · rw [Prod.mk.injEq, Prod.mk.injEq] at heq
        obtain ⟨hn, hsym, hc⟩ := heq
        left
        subst hn
        subst hc
        rw [← hsym]
        rw [if_pos (by simp [hdn])]
        exact hp
      · exact Or.inr ⟨n2, c2, htail, hdn, hp⟩

/-- A `DiscStep` chain with no components stays at the start node. -/
theorem DiscStep_nil {t u : FSNode} (h : DiscStep t [] u) : u = t := by
  cases h
  rfl

/-- Inversion of a non-empty `DiscStep` chain. -/
theorem DiscStep_cons {t u : FSNode} {n : FName} {rel : List FName}
    (h : DiscStep t (n :: rel) u) :
    ∃ es child, t = .dir (some es) ∧ (n, false, child) ∈ es ∧
      isDirNode child = true ∧ nodeHasGit (.dir (some es)) = false ∧
      DiscStep child rel u := by
  cases h with
  | step hm hd hg hrest => exact ⟨_, _, rfl, hm, hd, hg, hrest⟩

/-- Characterization of `collect_repos`: a path is recorded exactly when the
walk reaches, within the depth bound and through non-symlink directories that
are free of the `.git` marker, a node that has the marker. -/
theorem collect_repos_mem_iff (t : FSNode) (max_depth : Nat) :
    ∀ depth dirPath p,
      p ∈ collect_repos t max_depth depth dirPath ↔
        ∃ rel u, p = dirPath ++ rel ∧ depth + rel.length ≤ max_depth ∧
          DiscStep t rel u ∧ nodeHasGit u = true := by
  induction t using FSNode.ind with
  | hf m =>
    intro depth dirPath p
    rw [collect_repos_file]
    simp only [List.not_mem_nil, false_iff]
    rintro ⟨rel, u, _, _, hstep, hu⟩
    cases rel with
    | nil =>
      rw [DiscStep_nil hstep] at hu
      exact absurd hu (by rw [show nodeHasGit (.file m) = false from rfl]; simp)
    | cons n rel2 =>
      obtain ⟨es2, child, heq, _, _, _, _⟩ := DiscStep_cons hstep
      exact FSNode.noConfusion heq
  | hn =>
    intro depth dirPath p
    rw [collect_repos_dirnone]
    simp only [List.not_mem_nil, false_iff]
    rintro ⟨rel, u, _, _, hstep, hu⟩
    cases rel with
    | nil =>
      rw [DiscStep_nil hstep] at hu
      exact absurd hu (by rw [show nodeHasGit (.dir none) = false from rfl]; simp)
    | cons n rel2 =>
      obtain ⟨es2, child, heq, _, _, _, _⟩ := DiscStep_cons hstep
      injection heq with heq2
      exact Option.noConfusion heq2
  | hd es IH =>
    intro depth dirPath p
    rw [collect_repos_dirsome]
    by_cases hdep : depth > max_depth
    · rw [if_pos hdep]
      simp only [List.not_mem_nil, false_iff]
      rintro ⟨rel, u, _, hlen, _, _⟩
      omega
    · rw [if_neg hdep]
      by_cases hgit : nodeHasGit (.dir (some es)) = true
      · rw [if_pos hgit]
        simp only [List.mem_singleton]
        constructor
        · rintro rfl
          exact ⟨[], _, by simp, by simp; omega, DiscStep.refl _, hgit⟩
        · rintro ⟨rel, u, hp, hlen, hstep, hu⟩
          cases rel with
          | nil => simpa using hp
          | cons n rel2 =>
            obtain ⟨es2, child, heq, _, _, hg2, _⟩ := DiscStep_cons hstep
            injection heq with heq2
            injection heq2 with heq3
            subst heq3
            exact absurd hgit (by rw [hg2]; simp)
      · rw [if_neg hgit]
        have hgitf : nodeHasGit (.dir (some es)) = false := by
          cases h2 : nodeHasGit (.dir (some es)) with
          | true => exact absurd h2 hgit
          | false => rfl
        rw [collect_repos_entries_mem]
        constructor
        · rintro ⟨n, child, hm, hdn, hp⟩
          obtain ⟨rel2, u, hp2, hlen2, hstep2, hu⟩ :=
            (IH (n, false, child) hm (depth + 1) (dirPath ++ [n]) p).mp hp
          refine ⟨n :: rel2, u, ?_, ?_, ?_, hu⟩
          · rw [List.append_cons]
            exact hp2
          · simp only [List.length_cons]
            omega
          · exact DiscStep.step hm hdn hgitf hstep2
        · rintro ⟨rel, u, hp, hlen, hstep, hu⟩
          cases rel with
          | nil =>
            rw [DiscStep_nil hstep] at hu
            exact absurd hu hgit
          | cons n rel2 =>
            obtain ⟨es2, child, heq, hm, hdn, hg2, hstep2⟩ := DiscStep_cons hstep
            injection heq with heq2
            injection heq2 with heq3
            subst heq3
            refine ⟨n, child, hm, hdn, ?_⟩
            rw [IH (n, false, child) hm (depth + 1) (dirPath ++ [n]) p]
            refine ⟨rel2, u, ?_, ?_, hstep2, hu⟩
            · rw [hp, List.append_cons]
            · simp only [List.length_cons] at hlen
              omega

/-- A `ScanStep` chain with no components stays at the start node. -/
theorem ScanStep_nil {t u : FSNode} (h : ScanStep t [] u) : u = t := by
  cases h
  rfl

/-- Inversion of a non-empty `ScanStep` chain. -/
theorem ScanStep_cons {t u : FSNode} {n : FName} {rel : List FName}
    (h : ScanStep t (n :: rel) u) :
    ∃ es child, t = .dir (some es) ∧ (n, false, child) ∈ es ∧
      isDirNode child = true ∧ TARGETS.contains n.toStr = false ∧
      startsDot n.toStr = false ∧ ScanStep child rel u := by
  cases h with
  | step hm hd ht hh hrest => exact ⟨_, _, rfl, hm, hd, ht, hh, hrest⟩

/-- One step of the entry loop of `scan_dir`, unfolded. -/
theorem scan_entries_cons (ign : String → Option Bool) (root dirPath : List FName)
    (n : FName) (sym : Bool) (child : FSNode) (rest : List (FName × Bool × FSNode)) :
    scan_entries ign root dirPath ((n, sym, child) :: rest) =
      (if !isDirNode child || sym then []
       else if TARGETS.contains n.toStr then
         (if (ign (checkStr (stripRoot root (dirPath ++ [n])))).getD false then
            [⟨dirPath ++ [n], dir_size child⟩]
          else [])
       else if startsDot n.toStr then []
       else scan_dir ign root (dirPath ++ [n]) child)
      ++ scan_entries ign root dirPath rest := rfl

/-- Membership in the entry loop of `scan_dir`: a candidate comes from some
non-symlink directory entry, either directly (target name, ignored) or from
the recursive scan of a non-target, non-hidden entry. -/
theorem scan_entries_mem (ign : String → Option Bool) (root dirPath : List FName)
    (es : List (FName × Bool × FSNode)) (pu : Purge) :
    pu ∈ scan_entries ign root dirPath es ↔
      ∃ n child, (n, false, child) ∈ es ∧ isDirNode child = true ∧
        ((TARGETS.contains n.toStr = true ∧
          ign (checkStr (stripRoot root (dirPath ++ [n]))) = some true ∧
          pu = ⟨dirPath ++ [n], dir_size child⟩) ∨
         (TARGETS.contains n.toStr = false ∧ startsDot n.toStr = false ∧
          pu ∈ scan_dir ign root (dirPath ++ [n]) child)) := by
  induction es with
  | nil => simp [scan_entries]
  | cons e rest ih =>
    obtain ⟨n, sym, child⟩ := e
    rw [scan_entries_cons, List.mem_append, ih]
    constructor
    · rintro (hin | ⟨n2, c2, hm, hdn, hcase⟩)
      · by_cases hskip : (!isDirNode child || sym) = true
        · rw [if_pos hskip] at hin
          simp at hin
        · rw [if_neg hskip] at hin
          have hdn : isDirNode child = true := by
            cases h2 : isDirNode child with
            | true => rfl
            | false => exact absurd (by rw [h2]; simp) hskip
          have hsym : sym = false := by
            cases h2 : sym with
            | false => rfl
            | true => exact absurd (by rw [h2]; simp) hskip
          subst hsym
          by_cases htgt : TARGETS.contains n.toStr = true
          · rw [if_pos htgt] at hin
            by_cases hign : (ign (checkStr (stripRoot root (dirPath ++ [n])))).getD false = true
            · rw [if_pos hign] at hin
              rw [List.mem_singleton] at hin
              exact ⟨n, child, List.mem_cons_self _ _, hdn,
                Or.inl ⟨htgt, (getD_false_iff _).mp hign, hin⟩⟩
            · rw [if_neg hign] at hin
              simp at hin
          · rw [if_neg htgt] at hin
            have htgtf : TARGETS.contains n.toStr = false := by
              cases h2 : TARGETS.contains n.toStr with
              | true => exact absurd h2 htgt
              | false => rfl
            by_cases hhid : startsDot n.toStr = true
            · rw [if_pos hhid] at hin
              simp at hin
            · rw [if_neg hhid] at hin
              have hhidf : startsDot n.toStr = false := by
                cases h2 : startsDot n.toStr with
                | true => exact absurd h2 hhid
                | false => rfl
              exact ⟨n, child, List.mem_cons_self _ _, hdn,
                Or.inr ⟨htgtf, hhidf, hin⟩⟩
      · exact ⟨n2, c2, List.mem_cons_of_mem _ hm, hdn, hcase⟩
    · rintro ⟨n2, c2, hm, hdn, hcase⟩
      rcases List.mem_cons.mp hm with heq | htail
      · rw [Prod.mk.injEq, Prod.mk.injEq] at heq
        obtain ⟨hn, hsym, hc⟩ := heq
        subst hn
        subst hc
        left
        rw [← hsym]
        rw [if_neg (by simp [hdn])]
        rcases hcase with ⟨htgt, hign, hpu⟩ | ⟨htgt, hhid, hmem⟩
        · rw [if_pos htgt, if_pos ((getD_false_iff _).mpr hign), hpu]
          exact List.mem_singleton.mpr rfl
        · rw [if_neg (by rw [htgt]; simp), if_neg (by rw [hhid]; simp)]
          exact hmem
      · exact Or.inr ⟨n2, c2, htail, hdn, hcase⟩

/-- Characterization of `scan_dir`: a candidate is emitted exactly for the
non-symlink directory entries reached through non-target, non-hidden
components whose basename is a target name and whose relative path, with a
trailing separator, the ignore oracle answers `some true` on. -/
theorem scan_dir_mem_iff (ign : String → Option Bool) (root : List FName)
    (t : FSNode) :
    ∀ dirPath pu,
      pu ∈ scan_dir ign root dirPath t ↔
        ∃ rel es n child, ScanStep t rel (.dir (some es)) ∧ (n, false, child) ∈ es ∧
          isDirNode child = true ∧ TARGETS.contains n.toStr = true ∧
          ign (checkStr (stripRoot root (dirPath ++ rel ++ [n]))) = some true ∧
          pu = ⟨dirPath ++ rel ++ [n], dir_size child⟩ := by
  induction t using FSNode.ind with
  | hf m =>
    intro dirPath pu
    rw [show scan_dir ign root dirPath (.file m) = [] from rfl]
    simp only [List.not_mem_nil, false_iff]
    rintro ⟨rel, es2, n, child, hstep, _, _, _, _, _⟩
    cases rel with
    | nil => exact FSNode.noConfusion (ScanStep_nil hstep)
    | cons n1 rel2 =>
      obtain ⟨es3, c3, heq, _, _, _, _, _⟩ := ScanStep_cons hstep
      exact FSNode.noConfusion heq
  | hn =>
    intro dirPath pu
    rw [show scan_dir ign root dirPath (.dir none) = [] from rfl]
    simp only [List.not_mem_nil, false_iff]
    rintro ⟨rel, es2, n, child, hstep, _, _, _, _, _⟩
    cases rel with
    | nil =>
      have h2 := ScanStep_nil hstep
      injection h2 with h3
      exact Option.noConfusion h3
    | cons n1 rel2 =>
      obtain ⟨es3, c3, heq, _, _, _, _, _⟩ := ScanStep_cons hstep
      injection heq with h3
      exact Option.noConfusion h3
  | hd es IH =>
    intro dirPath pu
    rw [show scan_dir ign root dirPath (.dir (some es)) =
      scan_entries ign root dirPath es from rfl]
    rw [scan_entries_mem]
    constructor
    · rintro ⟨n, child, hm, hdn, hcase⟩
      rcases hcase with ⟨htgt, hign, hpu⟩ | ⟨htgt, hhid, hmem⟩
      · refine ⟨[], es, n, child, ScanStep.refl _, hm, hdn, htgt, ?_, ?_⟩
        · rw [List.append_nil]
          exact hign
        · rw [List.append_nil]
          exact hpu
      · obtain ⟨rel2, es2, n2, c2, hstep, hm2, hdn2, htgt2, hign2, hpu2⟩ :=
          (IH (n, false, child) hm (dirPath ++ [n]) pu).mp hmem
        refine ⟨n :: rel2, es2, n2, c2, ScanStep.step hm hdn htgt hhid hstep,
          hm2, hdn2, htgt2, ?_, ?_⟩
        · rw [List.append_cons dirPath n rel2]
          exact hign2
        · rw [List.append_cons dirPath n rel2]
          exact hpu2
    · rintro ⟨rel, es2, n, child, hstep, hm, hdn, htgt, hign, hpu⟩
      cases rel with
      | nil =>
        have h2 := ScanStep_nil hstep
        injection h2 with h3
        injection h3 with h4
        subst h4
        rw [List.append_nil] at hign hpu
        exact ⟨n, child, hm, hdn, Or.inl ⟨htgt, hign, hpu⟩⟩
      | cons n1 rel2 =>
        obtain ⟨es3, c3, heq, hm3, hdn3, htgt3, hhid3, hstep2⟩ := ScanStep_cons hstep
        injection heq with h3
        injection h3 with h4
        subst h4
        refine ⟨n1, c3, hm3, hdn3, Or.inr ⟨htgt3, hhid3, ?_⟩⟩
        rw [IH (n1, false, c3) hm3 (dirPath ++ [n1]) pu]
        refine ⟨rel2, es2, n, child, hstep2, hm, hdn, htgt, ?_, ?_⟩
        · rw [← List.append_cons dirPath n1 rel2]
          exact hign
        · rw [← List.append_cons dirPath n1 rel2]
          exact hpu

/-- Every component of a `ScanStep` chain is neither a target name nor
hidden. -/
theorem ScanStep_comps {t u : FSNode} {rel : List FName} (h : ScanStep t rel u) :
    ∀ m ∈ rel, TARGETS.contains m.toStr = false ∧ startsDot m.toStr = false := by
  induction h with
  | refl t => simp
  | step hm hd ht hh hrest ih =>
    intro m hmem
    rcases List.mem_cons.mp hmem with rfl | h2
    · exact ⟨ht, hh⟩
    · exact ih m h2

/-- Every emitted candidate path is the scanned directory followed by
non-target, non-hidden components and a final target component. -/
theorem scan_dir_shape {ign : String → Option Bool} {root dirPath : List FName}
    {t : FSNode} {pu : Purge} (h : pu ∈ scan_dir ign root dirPath t) :
    ∃ rel n, pu.path = dirPath ++ rel ++ [n] ∧ TARGETS.contains n.toStr = true ∧
      ∀ m ∈ rel, TARGETS.contains m.toStr = false ∧ startsDot m.toStr = false := by
  obtain ⟨rel, es, n, child, hstep, hm, hdn, htgt, hign, hpu⟩ :=
    (scan_dir_mem_iff ign root t dirPath pu).mp h
  exact ⟨rel, n, by rw [hpu], htgt, ScanStep_comps hstep⟩

/-- A prefix of a list with one element appended is the whole list or a
prefix of the front. -/
theorem prefix_snoc {α : Type} {l m : List α} {x : α} (h : l <+: m ++ [x]) :
    l = m ++ [x] ∨ l <+: m := by
  by_cases hlen : l.length = (m ++ [x]).length
  · exact Or.inl (List.IsPrefix.eq_of_length h hlen)
  · right
    apply List.prefix_of_prefix_length_le h (List.prefix_append m [x])
    have h2 := h.length_le
    simp only [List.length_append, List.length_singleton] at h2 hlen
    omega

/-- Candidate paths of one scan are never proper prefixes of one another. -/
theorem scan_paths_incomparable {ign : String → Option Bool}
    {root dirPath : List FName} {t : FSNode} {a b : Purge}
    (ha : a ∈ scan_dir ign root dirPath t) (hb : b ∈ scan_dir ign root dirPath t)
    (hpre : a.path <+: b.path) : a.path = b.path := by
  obtain ⟨r1, n1, hp1, ht1, _⟩ := scan_dir_shape ha
  obtain ⟨r2, n2, hp2, _, hcomp2⟩ := scan_dir_shape hb
  rw [hp1, hp2] at hpre ⊢
  rw [List.append_assoc dirPath r1 [n1], List.append_assoc dirPath r2 [n2]] at hpre ⊢
  rw [List.prefix_append_right_inj] at hpre
  rcases prefix_snoc hpre with heq | hpre2
  · rw [heq]
  · exfalso
    have hn1 : n1 ∈ r2 := hpre2.subset (by simp)
    have h2 := (hcomp2 n1 hn1).1
    rw [ht1] at h2
    exact Bool.noConfusion h2

/-- Every node of a listing of a tree with distinct basenames again has
distinct basenames. -/
theorem noDupEntries_mem {es : List (FName × Bool × FSNode)}
    (h : noDupEntries es = true) {e : FName × Bool × FSNode} (he : e ∈ es) :
    noDupNames e.2.2 = true := by
  induction es with
  | nil => simp at he
  | cons e2 rest ih =>
    rw [show noDupEntries (e2 :: rest) = (noDupNames e2.2.2 && noDupEntries rest)
      from rfl, Bool.and_eq_true] at h
    rcases List.mem_cons.mp he with rfl | h2
    · exact h.1
    · exact ih h.2 h2

/-- In a listing with pairwise distinct basenames, two entries with the same
basename are the same entry. -/
theorem entries_name_inj {es : List (FName × Bool × FSNode)}
    (hnd : (es.map (fun e => e.1)).Nodup) {n : FName} {b b2 : Bool} {c c2 : FSNode}
    (h1 : (n, b, c) ∈ es) (h2 : (n, b2, c2) ∈ es) : b = b2 ∧ c = c2 := by
  have h3 := List.inj_on_of_nodup_map hnd h1 h2 rfl
  rw [Prod.mk.injEq, Prod.mk.injEq] at h3
  exact ⟨h3.2.1, h3.2.2⟩

/-- On a tree with distinct basenames, a `DiscStep` chain is determined by
its components. -/
theorem DiscStep_det :
    ∀ {rel : List FName} {t u v : FSNode}, noDupNames t = true →
      DiscStep t rel u → DiscStep t rel v → u = v := by
  intro rel
  induction rel with
  | nil =>
    intro t u v _ hu hv
    rw [DiscStep_nil hu, DiscStep_nil hv]
  | cons n rel2 ih =>
    intro t u v hnd hu hv
    obtain ⟨es, child, heq, hm, hdn, hg, hstep⟩ := DiscStep_cons hu
    obtain ⟨es2, child2, heq2, hm2, hdn2, hg2, hstep2⟩ := DiscStep_cons hv
    subst heq
    injection heq2 with h3
    injection h3 with h4
    subst h4
    rw [show noDupNames (.dir (some es)) =
      (decide ((es.map (fun e => e.1)).Nodup) && noDupEntries es) from rfl,
      Bool.and_eq_true, decide_eq_true_eq] at hnd
    obtain ⟨hmap, hents⟩ := hnd
    obtain ⟨_, hc⟩ := entries_name_inj hmap hm hm2
    subst hc
    exact ih (noDupEntries_mem hents hm) hstep hstep2

/-- A proper initial segment of a `DiscStep` chain ends at a node without the
`.git` marker. -/
theorem DiscStep_mid {rel2 : List FName} :
    ∀ {rel1 : List FName} {t u : FSNode}, DiscStep t (rel1 ++ rel2) u → rel2 ≠ [] →
      ∃ w, DiscStep t rel1 w ∧ nodeHasGit w = false := by
  intro rel1
  induction rel1 with
  | nil =>
    intro t u h hne
    cases h2 : rel2 with
    | nil => exact absurd h2 hne
    | cons n r =>
      subst h2
      rw [List.nil_append] at h
      obtain ⟨es, child, heq, hm, hdn, hg, hstep⟩ := DiscStep_cons h
      subst heq
      exact ⟨_, DiscStep.refl _, hg⟩
  | cons n r1 ih =>
    intro t u h hne
    rw [List.cons_append] at h
    obtain ⟨es, child, heq, hm, hdn, hg, hstep⟩ := DiscStep_cons h
    subst heq
    obtain ⟨w, hw, hwg⟩ := ih hstep hne
    exact ⟨w, DiscStep.step hm hdn hg hw, hwg⟩

/-- On a tree with distinct basenames, recorded repository paths are never
proper prefixes of one another. -/
theorem collect_repos_incomparable {t : FSNode} (hnd : noDupNames t = true)
    {max_depth depth : Nat} {dirPath p q : List FName}
    (hp : p ∈ collect_repos t max_depth depth dirPath)
    (hq : q ∈ collect_repos t max_depth depth dirPath)
    (hpre : p <+: q) : p = q := by
  rw [collect_repos_mem_iff] at hp hq
  obtain ⟨rel1, u1, rfl, hlen1, hstep1, hg1⟩ := hp
  obtain ⟨rel2, u2, rfl, hlen2, hstep2, hg2⟩ := hq
  rw [List.prefix_append_right_inj] at hpre
  obtain ⟨k, hk⟩ := hpre
  by_cases hkn : k = []
  · subst hkn
    rw [List.append_nil] at hk
    rw [hk]
  · exfalso
    rw [← hk] at hstep2
    obtain ⟨w, hw, hwg⟩ := DiscStep_mid hstep2 hkn
    have h5 := DiscStep_det hnd hstep1 hw
    rw [← h5, hg1] at hwg
    exact Bool.noConfusion hwg

/-- Shape analysis of `symEquiv`. -/
theorem symEquiv_cases : ∀ {t t2 : FSNode}, symEquiv t t2 = true →
    (∃ m, t = .file m ∧ t2 = .file m) ∨ (t = .dir none ∧ t2 = .dir none) ∨
    (∃ es es2, t = .dir (some es) ∧ t2 = .dir (some es2) ∧
      symEquivEntries es es2 = true) := by
  intro t t2 h
  cases t with
  | file m =>
    cases t2 with
    | file m2 =>
      rw [show symEquiv (.file m) (.file m2) = decide (m = m2) from rfl,
        decide_eq_true_eq] at h
      exact Or.inl ⟨m, rfl, by rw [h]⟩
    | dir o =>
      cases o with
      | none => exact Bool.noConfusion h
      | some es => exact Bool.noConfusion h
  | dir o =>
    cases o with
    | none =>
      cases t2 with
      | file m2 => exact Bool.noConfusion h
      | dir o2 =>
        cases o2 with
        | none => exact Or.inr (Or.inl ⟨rfl, rfl⟩)
        | some es2 => exact Bool.noConfusion h
    | some es =>
      cases t2 with
      | file m2 => exact Bool.noConfusion h
      | dir o2 =>
        cases o2 with
        | none => exact Bool.noConfusion h
        | some es2 => exact Or.inr (Or.inr ⟨es, es2, rfl, rfl, h⟩)

/-- Inversion of `symEquivEntries` on an empty first listing. -/
theorem symEquivEntries_nil : ∀ {l2 : List (FName × Bool × FSNode)},
    symEquivEntries [] l2 = true → l2 = [] := by
  intro l2 h
  cases l2 with
  | nil => rfl
  | cons e2 r2 =>
    obtain ⟨n2, sym2, c2⟩ := e2
    exact Bool.noConfusion h

/-- Inversion of `symEquivEntries` on a non-empty first listing. -/
theorem symEquivEntries_cons {n : FName} {sym : Bool} {c : FSNode}
    {r l2 : List (FName × Bool × FSNode)}
    (h : symEquivEntries ((n, sym, c) :: r) l2 = true) :
    ∃ c2 r2, l2 = (n, sym, c2) :: r2 ∧
      (sym = false → symEquiv c c2 = true) ∧ symEquivEntries r r2 = true := by
  cases l2 with
  | nil =>
    exact Bool.noConfusion h
  | cons e2 r2 =>
    obtain ⟨n2, sym2, c2⟩ := e2
    rw [show symEquivEntries ((n, sym, c) :: r) ((n2, sym2, c2) :: r2) =
      (decide (n = n2) && decide (sym = sym2) && (sym || symEquiv c c2) &&
        symEquivEntries r r2) from rfl] at h
    rw [Bool.and_eq_true, Bool.and_eq_true, Bool.and_eq_true,
      decide_eq_true_eq, decide_eq_true_eq] at h
    obtain ⟨⟨⟨hn, hsym⟩, hor⟩, hrest⟩ := h
    subst hn
    subst hsym
    refine ⟨c2, r2, rfl, ?_, hrest⟩
    intro hs
    rw [hs] at hor
    simpa using hor

/-- `symEquiv` trees have identical basename listings. -/
theorem symEquivEntries_names : ∀ {es es2 : List (FName × Bool × FSNode)},
    symEquivEntries es es2 = true →
    es.map (fun e => e.1) = es2.map (fun e => e.1) := by
  intro es
  induction es with
  | nil =>
    intro es2 h
    rw [symEquivEntries_nil h]
  | cons e r ih =>
    intro es2 h
    obtain ⟨n, sym, c⟩ := e
    obtain ⟨c2, r2, rfl, _, hrest⟩ := symEquivEntries_cons h
    simp only [List.map_cons]
    rw [ih hrest]

/-- The `.git` marker check only looks at basenames, so it is invariant under
`symEquiv`. -/
theorem symEquiv_hasGit {t t2 : FSNode} (h : symEquiv t t2 = true) :
    nodeHasGit t = nodeHasGit t2 := by
  rcases symEquiv_cases h with ⟨m, rfl, rfl⟩ | ⟨rfl, rfl⟩ | ⟨es, es2, rfl, rfl, hent⟩
  · rfl
  · rfl
  · have hany : ∀ l : List (FName × Bool × FSNode),
        l.any (fun e => decide (e.1 = FName.utf8 ".git")) =
          (l.map (fun e => e.1)).any (fun x => decide (x = FName.utf8 ".git")) := by
      intro l
      induction l with
      | nil => rfl
      | cons e r ih => simp only [List.any_cons, List.map_cons, ih]
    rw [show nodeHasGit (.dir (some es)) =
      es.any (fun e => decide (e.1 = FName.utf8 ".git")) from rfl,
      show nodeHasGit (.dir (some es2)) =
      es2.any (fun e => decide (e.1 = FName.utf8 ".git")) from rfl,
      hany es, hany es2, symEquivEntries_names hent]

/-- `symEquiv` trees have the same directory-or-file shape. -/
theorem symEquiv_isDir {t t2 : FSNode} (h : symEquiv t t2 = true) :
    isDirNode t = isDirNode t2 := by
  rcases symEquiv_cases h with ⟨m, rfl, rfl⟩ | ⟨rfl, rfl⟩ | ⟨es, es2, rfl, rfl, _⟩ <;> rfl

/-- `spec_size` never looks behind a symlink entry, so it is invariant under
`symEquiv`. -/
theorem symEquiv_spec_size : ∀ {t t2 : FSNode}, symEquiv t t2 = true →
    spec_size t = spec_size t2 := by
  intro t
  induction t using FSNode.ind with
  | hf m =>
    intro t2 h
    rcases symEquiv_cases h with ⟨m2, heq, rfl⟩ | ⟨heq, _⟩ | ⟨es, es2, heq, _, _⟩
    · injection heq with h2
      rw [h2]
    · exact FSNode.noConfusion heq
    · exact FSNode.noConfusion heq
  | hn =>
    intro t2 h
    rcases symEquiv_cases h with ⟨m2, heq, rfl⟩ | ⟨heq, rfl⟩ | ⟨es, es2, heq, _, _⟩
    · exact FSNode.noConfusion heq
    · rfl
    · injection heq with h2
      exact Option.noConfusion h2
  | hd es IH =>
    intro t2 h
    rcases symEquiv_cases h with ⟨m2, heq, rfl⟩ | ⟨heq, rfl⟩ | ⟨es1, es2, heq, rfl, hent⟩
    · exact FSNode.noConfusion heq
    · injection heq with h2
      exact Option.noConfusion h2
    · injection heq with h2
      injection h2 with h3
      subst h3
      rw [show spec_size (.dir (some es)) = spec_size_entries es from rfl,
        show spec_size (.dir (some es2)) = spec_size_entries es2 from rfl]
      have inner : ∀ (l l2 : List (FName × Bool × FSNode)),
          (∀ e ∈ l, ∀ u : FSNode, symEquiv e.2.2 u = true →
            spec_size e.2.2 = spec_size u) →
          symEquivEntries l l2 = true →
          spec_size_entries l = spec_size_entries l2 := by
        intro l
        induction l with
        | nil =>
          intro l2 _ hent2
          rw [symEquivEntries_nil hent2]
        | cons e r ihl =>
          intro l2 hIH hent2
          obtain ⟨n, sym, c⟩ := e
          obtain ⟨c2, r2, rfl, hsc, hrest⟩ := symEquivEntries_cons hent2
          have htail : spec_size_entries r = spec_size_entries r2 :=
            ihl r2 (fun e he => hIH e (List.mem_cons_of_mem _ he)) hrest
          cases sym with
          | true =>
            rw [show spec_size_entries ((n, true, c) :: r) =
              0 + spec_size_entries r from rfl,
              show spec_size_entries ((n, true, c2) :: r2) =
              0 + spec_size_entries r2 from rfl, htail]
          | false =>
            have hcc := hIH (n, false, c) (List.mem_cons_self _ _) c2 (hsc rfl)
            rcases symEquiv_cases (hsc rfl) with ⟨m, rfl, rfl⟩ | ⟨rfl, rfl⟩ |
              ⟨cs, cs2, rfl, rfl, _⟩
            · rw [show spec_size_entries ((n, false, FSNode.file m) :: r) =
                m.getD 0 + spec_size_entries r from rfl,
                show spec_size_entries ((n, false, FSNode.file m) :: r2) =
                m.getD 0 + spec_size_entries r2 from rfl, htail]
            · rw [show spec_size_entries ((n, false, FSNode.dir none) :: r) =
                spec_size (FSNode.dir none) + spec_size_entries r from rfl,
                show spec_size_entries ((n, false, FSNode.dir none) :: r2) =
                spec_size (FSNode.dir none) + spec_size_entries r2 from rfl, htail]
            · rw [show spec_size_entries ((n, false, FSNode.dir (some cs)) :: r) =
                spec_size (FSNode.dir (some cs)) + spec_size_entries r from rfl,
                show spec_size_entries ((n, false, FSNode.dir (some cs2)) :: r2) =
                spec_size (FSNode.dir (some cs2)) + spec_size_entries r2 from rfl,
                htail, hcc]
      exact inner es es2 IH hent

/-- `collect_repos` never descends behind a symlink entry, so it is invariant
under `symEquiv`. -/
theorem symEquiv_collect_repos : ∀ {t t2 : FSNode}, symEquiv t t2 = true →
    ∀ max_depth depth dirPath, collect_repos t max_depth depth dirPath =
      collect_repos t2 max_depth depth dirPath := by
  intro t
  induction t using FSNode.ind with
  | hf m =>
    intro t2 h max_depth depth dirPath
    rcases symEquiv_cases h with ⟨m2, heq, rfl⟩ | ⟨heq, rfl⟩ | ⟨es1, es2, heq, rfl, _⟩
    · injection heq with h2
      rw [h2]
    · exact FSNode.noConfusion heq
    · exact FSNode.noConfusion heq
  | hn =>
    intro t2 h max_depth depth dirPath
    rcases symEquiv_cases h with ⟨m2, heq, rfl⟩ | ⟨heq, rfl⟩ | ⟨es1, es2, heq, rfl, _⟩
    · exact FSNode.noConfusion heq
    · rfl
    · injection heq with h2
      exact Option.noConfusion h2
  | hd es IH =>
    intro t2 h max_depth depth dirPath
    rcases symEquiv_cases h with ⟨m2, heq, rfl⟩ | ⟨heq, rfl⟩ | ⟨es1, es2, heq, rfl, hent⟩
    · exact FSNode.noConfusion heq
    · injection heq with h2
      exact Option.noConfusion h2
    · injection heq with h2
      injection h2 with h3
      subst h3
      rw [collect_repos_dirsome, collect_repos_dirsome, symEquiv_hasGit h]
      by_cases hdep : depth > max_depth
      · rw [if_pos hdep, if_pos hdep]
      · rw [if_neg hdep, if_neg hdep]
        by_cases hg2 : nodeHasGit (.dir (some es2)) = true
        · rw [if_pos hg2, if_pos hg2]
        · rw [if_neg hg2, if_neg hg2]
          have inner : ∀ (l l2 : List (FName × Bool × FSNode)),
              (∀ e ∈ l, ∀ u : FSNode, symEquiv e.2.2 u = true →
                ∀ max_depth depth dirPath,
                  collect_repos e.2.2 max_depth depth dirPath =
                    collect_repos u max_depth depth dirPath) →
              symEquivEntries l l2 = true →
              ∀ depth dirPath, collect_repos_entries l max_depth depth dirPath =
                collect_repos_entries l2 max_depth depth dirPath := by
            intro l
            induction l with
            | nil =>
              intro l2 _ hent2 depth dirPath
              rw [symEquivEntries_nil hent2]
            | cons e r ihl =>
              intro l2 hIH hent2 depth dirPath
              obtain ⟨n, sym, c⟩ := e
              obtain ⟨c2, r2, rfl, hsc, hrest⟩ := symEquivEntries_cons hent2
              rw [show collect_repos_entries ((n, sym, c) :: r) max_depth depth dirPath =
                (if isDirNode c && !sym then
                   collect_repos c max_depth (depth + 1) (dirPath ++ [n])
                 else []) ++ collect_repos_entries r max_depth depth dirPath from rfl]
              rw [show collect_repos_entries ((n, sym, c2) :: r2) max_depth depth dirPath =
                (if isDirNode c2 && !sym then
                   collect_repos c2 max_depth (depth + 1) (dirPath ++ [n])
                 else []) ++ collect_repos_entries r2 max_depth depth dirPath from rfl]
              rw [ihl r2 (fun e he => hIH e (List.mem_cons_of_mem _ he)) hrest depth dirPath]
              cases sym with
              | true =>
                rw [if_neg (by simp), if_neg (by simp)]
              | false =>
                have hdir := symEquiv_isDir (hsc rfl)
                by_cases hd2 : (isDirNode c && !false) = true
                · rw [if_pos hd2, if_pos (by rw [← hdir]; exact hd2)]
                  rw [hIH (n, false, c) (List.mem_cons_self _ _) c2 (hsc rfl)
                    max_depth (depth + 1) (dirPath ++ [n])]
                · rw [if_neg hd2, if_neg (by rw [← hdir]; exact hd2)]
          exact inner es es2 IH hent depth dirPath

/-- `scan_dir` never classifies or descends behind a symlink entry, so it is
invariant under `symEquiv`. -/
theorem symEquiv_scan_dir (ign : String → Option Bool) (root : List FName) :
    ∀ {t t2 : FSNode}, symEquiv t t2 = true →
    ∀ dirPath, scan_dir ign root dirPath t = scan_dir ign root dirPath t2 := by
  intro t
  induction t using FSNode.ind with
  | hf m =>
    intro t2 h dirPath
    rcases symEquiv_cases h with ⟨m2, heq, rfl⟩ | ⟨heq, rfl⟩ | ⟨es1, es2, heq, rfl, _⟩
    · injection heq with h2
      rw [h2]
    · exact FSNode.noConfusion heq
    · exact FSNode.noConfusion heq
  | hn =>
    intro t2 h dirPath
    rcases symEquiv_cases h with ⟨m2, heq, rfl⟩ | ⟨heq, rfl⟩ | ⟨es1, es2, heq, rfl, _⟩
    · exact FSNode.noConfusion heq
    · rfl
    · injection heq with h2
      exact Option.noConfusion h2
  | hd es IH =>
    intro t2 h dirPath
    rcases symEquiv_cases h with ⟨m2, heq, rfl⟩ | ⟨heq, rfl⟩ | ⟨es1, es2, heq, rfl, hent⟩
    · exact FSNode.noConfusion heq
    · injection heq with h2
      exact Option.noConfusion h2
    · injection heq with h2
      injection h2 with h3
      subst h3
      rw [show scan_dir ign root dirPath (.dir (some es)) =
        scan_entries ign root dirPath es from rfl,
        show scan_dir ign root dirPath (.dir (some es2)) =
        scan_entries ign root dirPath es2 from rfl]
      have inner : ∀ (l l2 : List (FName × Bool × FSNode)),
          (∀ e ∈ l, ∀ u : FSNode, symEquiv e.2.2 u = true →
            ∀ dirPath, scan_dir ign root dirPath e.2.2 =
              scan_dir ign root dirPath u) →
          symEquivEntries l l2 = true →
          ∀ dirPath, scan_entries ign root dirPath l =
            scan_entries ign root dirPath l2 := by
        intro l
        induction l with
        | nil =>
          intro l2 _ hent2 dirPath
          rw [symEquivEntries_nil hent2]
        | cons e r ihl =>
          intro l2 hIH hent2 dirPath
          obtain ⟨n, sym, c⟩ := e
          obtain ⟨c2, r2, rfl, hsc, hrest⟩ := symEquivEntries_cons hent2
          rw [scan_entries_cons, scan_entries_cons,
            ihl r2 (fun e he => hIH e (List.mem_cons_of_mem _ he)) hrest dirPath]
          cases sym with
          | true =>
            have hA : (!isDirNode c || true) = true := by simp
            have hB : (!isDirNode c2 || true) = true := by simp
            rw [if_pos hA, if_pos hB]
          | false =>
            have hdir := symEquiv_isDir (hsc rfl)
            by_cases hskip : (!isDirNode c || false) = true
            · have hskip2 : (!isDirNode c2 || false) = true := by
                rw [← hdir]
                exact hskip
              rw [if_pos hskip, if_pos hskip2]
            · have hskip2 : ¬(!isDirNode c2 || false) = true := by
                rw [← hdir]
                exact hskip
              rw [if_neg hskip, if_neg hskip2]
              by_cases htgt : TARGETS.contains n.toStr = true
              · rw [if_pos htgt, if_pos htgt]
                rw [show dir_size c = dir_size c2 from by
                  rw [dir_size_eq_spec, dir_size_eq_spec,
                    symEquiv_spec_size (hsc rfl)]]
              · rw [if_neg htgt, if_neg htgt]
                by_cases hhid : startsDot n.toStr = true
                · rw [if_pos hhid, if_pos hhid]
                · rw [if_neg hhid, if_neg hhid]
                  rw [hIH (n, false, c) (List.mem_cons_self _ _) c2 (hsc rfl)
                    (dirPath ++ [n])]
      exact inner es es2 IH hent dirPath

/-- The deletion loop on a successful removal. -/
theorem exec_loop_cons_some {rm : FSNode → List FName → Option FSNode}
    {w w2 : FSNode} {p : Purge} {ps : List Purge} (h : rm w p.path = some w2) :
    exec_loop rm w (p :: ps) =
      ((exec_loop rm w2 ps).1, p.size + (exec_loop rm w2 ps).2.1,
        (exec_loop rm w2 ps).2.2) := by
  rw [exec_loop, h]

/-- The deletion loop on a failed removal. -/
theorem exec_loop_cons_none {rm : FSNode → List FName → Option FSNode}
    {w : FSNode} {p : Purge} {ps : List Purge} (h : rm w p.path = none) :
    exec_loop rm w (p :: ps) =
      ((exec_loop rm w ps).1, (exec_loop rm w ps).2.1,
        (exec_loop rm w ps).2.2 + 1) := by
  rw [exec_loop, h]

/-- The outcome list on a successful removal. -/
theorem exec_outcomes_cons_some {rm : FSNode → List FName → Option FSNode}
    {w w2 : FSNode} {p : Purge} {ps : List Purge} (h : rm w p.path = some w2) :
    exec_outcomes rm w (p :: ps) = true :: exec_outcomes rm w2 ps := by
  rw [exec_outcomes, h]

/-- The outcome list on a failed removal. -/
theorem exec_outcomes_cons_none {rm : FSNode → List FName → Option FSNode}
    {w : FSNode} {p : Purge} {ps : List Purge} (h : rm w p.path = none) :
    exec_outcomes rm w (p :: ps) = false :: exec_outcomes rm w ps := by
  rw [exec_outcomes, h]

/-- The deletion loop frees exactly the recorded sizes of the candidates
whose removal succeeded, counts exactly the failed ones, and attempts every
candidate. -/
theorem exec_loop_spec (rm : FSNode → List FName → Option FSNode) :
    ∀ (ps : List Purge) (w : FSNode),
      (exec_loop rm w ps).2.1 =
        (((ps.zip (exec_outcomes rm w ps)).filter (fun x => x.2)).map
          (fun x => x.1.size)).sum ∧
      (exec_loop rm w ps).2.2 = (exec_outcomes rm w ps).count false ∧
      (exec_outcomes rm w ps).length = ps.length := by
  intro ps
  induction ps with
  | nil =>
    intro w
    refine ⟨rfl, rfl, rfl⟩
  | cons p ps ih =>
    intro w
    cases h : rm w p.path with
    | some w2 =>
      rw [exec_loop_cons_some h, exec_outcomes_cons_some h]
      obtain ⟨ih1, ih2, ih3⟩ := ih w2
      refine ⟨?_, ?_, ?_⟩
      · simp only [List.zip_cons_cons, List.filter_cons, List.map_cons,
          List.sum_cons, ih1]
        rfl
      · simp only [List.count_cons, ih2]
        simp
      · simp only [List.length_cons, ih3]
    | none =>
      rw [exec_loop_cons_none h, exec_outcomes_cons_none h]
      obtain ⟨ih1, ih2, ih3⟩ := ih w
      refine ⟨?_, ?_, ?_⟩
      · simp only [List.zip_cons_cons, List.filter_cons, List.map_cons,
          List.sum_cons, ih1]
        rfl
      · simp only [List.count_cons, ih2]
        simp
      · simp only [List.length_cons, ih3]

/-- `run` with the dry-run flag set: the world is returned unchanged, and the
result is success whenever the repository list is non-empty. -/
theorem run_dry_eq (rm : FSNode → List FName → Option FSNode)
    (openRepo : List FName → Option (String → Option Bool))
    (depth : Nat) (yes : Bool) (answer : String) (w : FSNode) :
    run rm openRepo ⟨depth, true, yes⟩ answer w =
      (w, !(find_repos [] w depth).isEmpty) := by
  simp only [run]
  split
  next h1 =>
    rw [h1]
    rfl
  next h1 =>
    have h1f : (find_repos [] w depth).isEmpty = false := by
      cases h2 : (find_repos [] w depth).isEmpty
      · rfl
      · exact absurd h2 h1
    rw [h1f]
    split
    next h2 => rfl
    next h2 => rfl

/-- C1: during a repository scan, a purge candidate is emitted for a
directory exactly when the walk reaches its parent, its basename is in the
fixed target allowlist, and the repository's ignore check — applied to the
path relative to the repository root with a trailing path separator —
successfully returns ignored (`some true`); a failing per-path check
(`none`) is treated as not ignored and produces no candidate, and a
repository that fails to open yields an empty scan instead of a failure. -/
theorem C1_candidate_iff (ign : String → Option Bool) (root : List FName)
    (t : FSNode) :
    (∀ pu : Purge, pu ∈ find_purgeable (some ign) root t ↔
      ∃ rel es n child, ScanStep t rel (.dir (some es)) ∧ (n, false, child) ∈ es ∧
        isDirNode child = true ∧ TARGETS.contains (FName.toStr n) = true ∧
        ign (checkStr (rel ++ [n])) = some true ∧
        pu = ⟨root ++ rel ++ [n], dir_size child⟩) ∧
    find_purgeable none root t = [] := by
  constructor
  · intro pu
    rw [show find_purgeable (some ign) root t = scan_dir ign root root t from rfl]
    rw [scan_dir_mem_iff]
    constructor
    · rintro ⟨rel, es, n, child, hstep, hm, hdn, htgt, hign, hpu⟩
      refine ⟨rel, es, n, child, hstep, hm, hdn, htgt, ?_, hpu⟩
      rwa [List.append_assoc, stripRoot_append] at hign
    · rintro ⟨rel, es, n, child, hstep, hm, hdn, htgt, hign, hpu⟩
      refine ⟨rel, es, n, child, hstep, hm, hdn, htgt, ?_, hpu⟩
      rwa [List.append_assoc, stripRoot_append]
  · rfl

/-- C2: within a single repository scan no candidate path is a strict
ancestor or strict descendant of another candidate path — a prefix relation
between two candidate paths forces them to be equal, because a matched
target directory is never recursed into, whether or not it was classified
as ignored. -/
theorem C2_no_nested_candidates (o : Option (String → Option Bool))
    (root : List FName) (t : FSNode) :
    ∀ a ∈ find_purgeable o root t, ∀ b ∈ find_purgeable o root t,
      (a.path <+: b.path → a.path = b.path) ∧
      (b.path <+: a.path → a.path = b.path) := by
  intro a ha b hb
  cases o with
  | none =>
    rw [show find_purgeable none root t = [] from rfl] at ha
    simp at ha
  | some ign =>
    rw [show find_purgeable (some ign) root t = scan_dir ign root root t
      from rfl] at ha hb
    exact ⟨fun h => scan_paths_incomparable ha hb h,
      fun h => (scan_paths_incomparable hb ha h).symm⟩

/-- C3: a directory entry whose basename starts with the hidden marker `.`
and is not on the target allowlist is skipped entirely — no candidate, no
recursion — so the repository's own metadata directory is never scanned;
and a hidden basename that is on the allowlist (such as `.gradle`) is still
classified as a target, because the target check precedes the hidden
check. -/
theorem C3_hidden_skipped (ign : String → Option Bool) (root dirPath : List FName)
    (n : FName) (sym : Bool) (child : FSNode)
    (rest : List (FName × Bool × FSNode))
    (hhid : startsDot (FName.toStr n) = true)
    (htgt : TARGETS.contains (FName.toStr n) = false) :
    scan_entries ign root dirPath ((n, sym, child) :: rest) =
      scan_entries ign root dirPath rest ∧
    find_purgeable (some exIgnAll) [] exHidden =
      [⟨[FName.utf8 ".gradle"], 0⟩] := by
  constructor
  · rw [scan_entries_cons]
    by_cases hskip : (!isDirNode child || sym) = true
    · rw [if_pos hskip, List.nil_append]
    · rw [if_neg hskip, if_neg (by rw [htgt]; simp), if_pos hhid, List.nil_append]
  · simp [find_purgeable, scan_dir, scan_entries, exHidden, exIgnAll, checkStr,
      pathDisplay, stripRoot, FName.toStr, FName.display, TARGETS, isDirNode,
      dir_size, dir_size_loop, pushDirs, fileBytes]

/-- Witness for C3: the hidden non-target entry `.foo` is skipped by the
entry loop. -/
theorem C3_witness :
    startsDot (FName.toStr (FName.utf8 ".foo")) = true ∧
    TARGETS.contains (FName.toStr (FName.utf8 ".foo")) = false ∧
    scan_entries exIgnAll [] [] [(FName.utf8 ".foo", false, FSNode.dir (some []))] =
      scan_entries exIgnAll [] [] [] := by
  refine ⟨by decide, by decide, ?_⟩
  exact (C3_hidden_skipped exIgnAll [] [] (FName.utf8 ".foo") false
    (FSNode.dir (some [])) [] (by decide) (by decide)).1

/-- C4: with the dry-run flag set, `run` never invokes the deletion step:
the file-system state after the invocation equals the state before it, and
the run succeeds exactly when repositories were found (an empty discovery is
the fatal no-repositories error, dry-run or not). -/
theorem C4_dry_run (rm : FSNode → List FName → Option FSNode)
    (openRepo : List FName → Option (String → Option Bool))
    (depth : Nat) (yes : Bool) (answer : String) (w : FSNode) :
    run rm openRepo ⟨depth, true, yes⟩ answer w =
      (w, !(find_repos [] w depth).isEmpty) :=
  run_dry_eq rm openRepo depth yes answer w

/-- C5: repository discovery returns a list sorted by path; a path is
recorded exactly when the walk reaches it within the depth bound through
non-symlink directories that lack the version-control marker and the node
itself carries the marker (so the root at depth 0 may be a repository, a
marked directory stops the descent, and nothing deeper than the bound is
recorded); on a tree with distinct basenames no recorded root lies inside
another; and an unreadable directory contributes nothing. -/
theorem C5_discovery (base : List FName) (t : FSNode) (max_depth : Nat) :
    List.Pairwise (fun p q => pathBle p q = true) (find_repos base t max_depth) ∧
    (∀ p, p ∈ find_repos base t max_depth ↔
      ∃ rel u, p = base ++ rel ∧ rel.length ≤ max_depth ∧
        DiscStep t rel u ∧ nodeHasGit u = true) ∧
    (noDupNames t = true →
      ∀ p ∈ find_repos base t max_depth, ∀ q ∈ find_repos base t max_depth,
        p <+: q → p = q) ∧
    (∀ md d dirPath, collect_repos (.dir none) md d dirPath = []) := by
  refine ⟨find_repos_sorted base t max_depth, ?_, ?_, ?_⟩
  · intro p
    rw [find_repos_mem, collect_repos_mem_iff]
    simp only [Nat.zero_add]
  · intro hnd p hp q hq hpre
    rw [find_repos_mem] at hp hq
    exact collect_repos_incomparable hnd hp hq hpre
  · intro md d dirPath
    exact collect_repos_dirnone md d dirPath

/-- Witness for C5: on the example world the single recorded root is not a
proper prefix of itself. -/
theorem C5_witness :
    noDupNames exWorld = true ∧
    [FName.utf8 "proj"] ∈ find_repos [] exWorld 3 ∧
    [FName.utf8 "proj"] = [FName.utf8 "proj"] := by
  have hnd : noDupNames exWorld = true := by decide
  have hmem : [FName.utf8 "proj"] ∈ find_repos [] exWorld 3 := by
    simp [find_repos, List.mergeSort, collect_repos, collect_repos_entries,
      exWorld, exRepo, nodeHasGit, isDirNode]
  exact ⟨hnd, hmem,
    (C5_discovery [] exWorld 3).2.2.1 hnd _ hmem _ hmem (List.prefix_refl _)⟩

/-- C6: the purge executor attempts every candidate in sequence — one
outcome per candidate — the freed bytes equal the sum of the scan-time
recorded sizes of exactly the candidates whose removal succeeded (sizes are
not re-measured), and each failed removal adds one to the error count
without stopping the remaining candidates. -/
theorem C6_executor (rm : FSNode → List FName → Option FSNode) (w : FSNode)
    (ps : List Purge) :
    (exec_loop rm w ps).2.1 =
      (((ps.zip (exec_outcomes rm w ps)).filter (fun x => x.2)).map
        (fun x => x.1.size)).sum ∧
    (exec_loop rm w ps).2.2 = (exec_outcomes rm w ps).count false ∧
    (exec_outcomes rm w ps).length = ps.length :=
  exec_loop_spec rm ps w

/-- C7: for every node, the size accountant returns exactly the sum of the
byte lengths of the regular files in the subtree, excluding every entry
reached through a symbolic link, with an unreadable directory contributing 0
and unreadable file metadata contributing 0 (`spec_size` is that
specification contract). -/
theorem C7_dir_size (t : FSNode) : dir_size t = spec_size t :=
  dir_size_eq_spec t

/-- C8: no walker traverses a symbolic-link directory entry: replacing the
tree behind any symlink entry (keeping names and flags) changes neither
repository discovery, nor the purge scan, nor the size accountant. -/
theorem C8_symlinks_opaque (t t2 : FSNode) (h : symEquiv t t2 = true) :
    (∀ max_depth depth dirPath, collect_repos t max_depth depth dirPath =
      collect_repos t2 max_depth depth dirPath) ∧
    (∀ ign root dirPath,
      scan_dir ign root dirPath t = scan_dir ign root dirPath t2) ∧
    dir_size t = dir_size t2 := by
  refine ⟨fun md d p => symEquiv_collect_repos h md d p,
    fun ign root dirPath => symEquiv_scan_dir ign root h dirPath, ?_⟩
  rw [dir_size_eq_spec, dir_size_eq_spec, symEquiv_spec_size h]

/-- Witness for C8: the example pair differs only behind the symlink `s`. -/
theorem C8_witness :
    symEquiv exSymA exSymB = true ∧
    ((∀ max_depth depth dirPath, collect_repos exSymA max_depth depth dirPath =
      collect_repos exSymB max_depth depth dirPath) ∧
    (∀ ign root dirPath,
      scan_dir ign root dirPath exSymA = scan_dir ign root dirPath exSymB) ∧
    dir_size exSymA = dir_size exSymB) := by
  have h : symEquiv exSymA exSymB = true := by decide
  exact ⟨h, C8_symlinks_opaque exSymA exSymB h⟩

/-- C9 counterexample: discovery records a root whose `.git` marker entry is
a regular file, so "the marker entry it contains is itself a directory"
fails on the code. -/
theorem C9_counterexample :
    [] ∈ find_repos [] exGitFile 3 ∧
    exGitFile = .dir (some [(FName.utf8 ".git", false, FSNode.file (some 0))]) ∧
    (∀ e ∈ [(FName.utf8 ".git", false, FSNode.file (some 0))],
      isDirNode e.2.2 = false) := by
  refine ⟨?_, rfl, by decide⟩
  simp [find_repos, List.mergeSort, collect_repos, nodeHasGit, exGitFile]

/-- C9 (amended): a directory is recorded as a repository root only when it
is a readable directory containing an entry named `.git` — of any file type,
not necessarily a directory. -/
theorem C9_marker_entry (base : List FName) (t : FSNode) (max_depth : Nat) :
    ∀ p ∈ find_repos base t max_depth,
      ∃ rel es, p = base ++ rel ∧ DiscStep t rel (.dir (some es)) ∧
        es.any (fun e => decide (e.1 = FName.utf8 ".git")) = true := by
  intro p hp
  rw [find_repos_mem, collect_repos_mem_iff] at hp
  obtain ⟨rel, u, rfl, hlen, hstep, hg⟩ := hp
  cases u with
  | file m => exact absurd hg (by rw [show nodeHasGit (.file m) = false from rfl]; simp)
  | dir o =>
    cases o with
    | none =>
      exact absurd hg (by rw [show nodeHasGit (.dir none) = false from rfl]; simp)
    | some es => exact ⟨rel, es, rfl, hstep, hg⟩

/-- Witness for the amended C9 at the `.git`-as-file example. -/
theorem C9_witness :
    ([] : List FName) ∈ find_repos [] exGitFile 3 ∧
    ∃ rel es, ([] : List FName) = [] ++ rel ∧
      DiscStep exGitFile rel (.dir (some es)) ∧
      es.any (fun e => decide (e.1 = FName.utf8 ".git")) = true := by
  have hmem : ([] : List FName) ∈ find_repos [] exGitFile 3 := by
    simp [find_repos, List.mergeSort, collect_repos, nodeHasGit, exGitFile]
  exact ⟨hmem, C9_marker_entry [] exGitFile 3 [] hmem⟩

/-- C10: a directory entry whose basename is not valid UTF-8 is treated as
neither a target name nor hidden: it is recursed into as an ordinary
directory (candidates beneath it are still found, as the concrete example
shows), and no candidate path ever ends in a non-UTF-8 component, so such a
directory can never itself become a candidate. -/
theorem C10_non_utf8 (ign : String → Option Bool) (root dirPath : List FName)
    (t : FSNode) :
    (∀ pu ∈ scan_dir ign root dirPath t,
      ∃ pre s, pu.path = pre ++ [FName.utf8 s] ∧ s ∈ TARGETS) ∧
    (∀ (id : Nat) (child : FSNode) (rest : List (FName × Bool × FSNode)),
      isDirNode child = true →
      scan_entries ign root dirPath ((FName.raw id, false, child) :: rest) =
        scan_dir ign root (dirPath ++ [FName.raw id]) child ++
          scan_entries ign root dirPath rest) ∧
    find_purgeable (some exIgnAll) [] exRawTree =
      [⟨[FName.raw 0, FName.utf8 "build"], 0⟩] := by
  refine ⟨?_, ?_, ?_⟩
  · intro pu hpu
    obtain ⟨rel, n, hp, htgt, _⟩ := scan_dir_shape hpu
    cases n with
    | utf8 s =>
      refine ⟨dirPath ++ rel, s, hp, ?_⟩
      rw [show FName.toStr (FName.utf8 s) = s from rfl] at htgt
      simpa using htgt
    | raw id =>
      rw [show FName.toStr (FName.raw id) = "" from rfl] at htgt
      exact absurd htgt (by decide)
  · intro id child rest hdn
    rw [scan_entries_cons]
    rw [if_neg (by rw [hdn]; simp),
      if_neg (by rw [show FName.toStr (FName.raw id) = "" from rfl]; decide),
      if_neg (by rw [show FName.toStr (FName.raw id) = "" from rfl]; decide)]
  · simp [find_purgeable, scan_dir, scan_entries, exRawTree, exIgnAll, checkStr,
      pathDisplay, stripRoot, FName.toStr, FName.display, TARGETS, isDirNode,
      startsDot, dir_size, dir_size_loop, pushDirs, fileBytes]

/-- Witness for C10: the candidate found beneath the non-UTF-8 directory
ends in the UTF-8 target component `build`. -/
theorem C10_witness :
    ((⟨[FName.raw 0, FName.utf8 "build"], 0⟩ : Purge) ∈
      scan_dir exIgnAll [] [] exRawTree) ∧
    (∃ pre s, (⟨[FName.raw 0, FName.utf8 "build"], 0⟩ : Purge).path =
      pre ++ [FName.utf8 s] ∧ s ∈ TARGETS) ∧
    scan_entries exIgnAll [] [] [(FName.raw 7, false, FSNode.dir (some []))] =
      scan_dir exIgnAll [] [FName.raw 7] (FSNode.dir (some [])) ++
        scan_entries exIgnAll [] [] [] := by
  have hmem : (⟨[FName.raw 0, FName.utf8 "build"], 0⟩ : Purge) ∈
      scan_dir exIgnAll [] [] exRawTree := by
    simp [scan_dir, scan_entries, exRawTree, exIgnAll, checkStr,
      pathDisplay, stripRoot, FName.toStr, FName.display, TARGETS, isDirNode,
      startsDot, dir_size, dir_size_loop, pushDirs, fileBytes]
  exact ⟨hmem, (C10_non_utf8 exIgnAll [] [] exRawTree).1 _ hmem,
    (C10_non_utf8 exIgnAll [] [] (FSNode.dir (some []))).2.1 7
      (FSNode.dir (some [])) [] rfl⟩

/-- Witness for C2 at a concrete scan: the `build` candidate of the example
repository is related to itself only through equality. -/
theorem C2_witness :
    ((⟨[FName.utf8 "build"], 4⟩ : Purge) ∈ find_purgeable (some exIgn) [] exRepo) ∧
    ((⟨[FName.utf8 "build"], 4⟩ : Purge).path <+:
        (⟨[FName.utf8 "build"], 4⟩ : Purge).path →
      (⟨[FName.utf8 "build"], 4⟩ : Purge).path =
        (⟨[FName.utf8 "build"], 4⟩ : Purge).path) := by
  have hmem : (⟨[FName.utf8 "build"], 4⟩ : Purge) ∈
      find_purgeable (some exIgn) [] exRepo := by
    simp [find_purgeable, scan_dir, scan_entries, exRepo, exIgn, checkStr,
      pathDisplay, stripRoot, FName.toStr, FName.display, TARGETS, isDirNode,
      startsDot, dir_size, dir_size_loop, pushDirs, fileBytes]
    decide
  exact ⟨hmem, (C2_no_nested_candidates (some exIgn) [] exRepo _ hmem _ hmem).1⟩

/-- Witness for C1: a failed repository open yields an empty scan of the
example repository. -/
theorem C1_witness : find_purgeable none [] exRepo = [] :=
  (C1_candidate_iff exIgn [] exRepo).2

/-- Witness for C4: a concrete dry run leaves the example world unchanged
and succeeds. -/
theorem C4_witness :
    run (fun w _ => some w) (fun _ => some exIgn) ⟨3, true, false⟩ "" exWorld =
      (exWorld, !(find_repos [] exWorld 3).isEmpty) :=
  C4_dry_run (fun w _ => some w) (fun _ => some exIgn) 3 false "" exWorld

/-- Witness for C6 at a concrete candidate list. -/
theorem C6_witness :
    (exec_loop (fun w _ => some w) exWorld
      ([⟨[FName.utf8 "build"], 4⟩] : List Purge)).2.1 =
      (((([⟨[FName.utf8 "build"], 4⟩] : List Purge).zip
        (exec_outcomes (fun w _ => some w) exWorld
          ([⟨[FName.utf8 "build"], 4⟩] : List Purge))).filter (fun x => x.2)).map
        (fun x => x.1.size)).sum ∧
    (exec_loop (fun w _ => some w) exWorld
      ([⟨[FName.utf8 "build"], 4⟩] : List Purge)).2.2 =
      (exec_outcomes (fun w _ => some w) exWorld
        ([⟨[FName.utf8 "build"], 4⟩] : List Purge)).count false ∧
    (exec_outcomes (fun w _ => some w) exWorld
      ([⟨[FName.utf8 "build"], 4⟩] : List Purge)).length =
      ([⟨[FName.utf8 "build"], 4⟩] : List Purge).length :=
  C6_executor (fun w _ => some w) exWorld ([⟨[FName.utf8 "build"], 4⟩] : List Purge)

/-- Witness for C7 at the example repository tree. -/
theorem C7_witness : dir_size exRepo = spec_size exRepo :=
  C7_dir_size exRepo
